import Mathlib

/-!
Verification of the CounterChaChaStreamHash (`CCSH`) header `src/ccsh.h`.

The C++ class `CCSH` keeps four member variables (`state : uint32_t[16]`,
`counter : uint64_t`, `nonce : uint64_t`, `initialized : bool`) and exposes
`start`, `update` and `hexdump`.  We embed machine words as `Nat` values,
taking results modulo `2^32` (resp. `2^64`) wherever the C++ code relies on
unsigned wraparound.  Byte strings become `List Nat` with entries below 256;
`memcpy` into the little-endian `uint32_t` payload area is modelled by
explicit little-endian packing of 4-byte groups.
-/

namespace CCSH

/-- `2^32`, the modulus of `uint32_t` arithmetic. -/
def M32 : Nat := 4294967296

/-- `2^64`, the modulus of `uint64_t` arithmetic. -/
def M64 : Nat := 18446744073709551616

/-- `CCSH::rotateLeft`: `((a) << (b)) | ((a) >> (32 - (b)))` on `uint32_t`
(the left shift is truncated to 32 bits on assignment). -/
def rotateLeft (a b : Nat) : Nat := ((a <<< b) % M32) ||| (a >>> (32 - b))

/-- `CCSH::quarterRound`: the four ARX steps
`a += b; d ^= a; d = rotateLeft(d, 16);`
`c += d; b ^= c; b = rotateLeft(b, 12);`
`a += b; d ^= a; d = rotateLeft(d, 8);`
`c += d; b ^= c; b = rotateLeft(b, 7);`
returning the updated `(a, b, c, d)`. -/
def quarterRound (a b c d : Nat) : Nat × Nat × Nat × Nat :=
  let a1 := (a + b) % M32
  let d1 := rotateLeft (d ^^^ a1) 16
  let c1 := (c + d1) % M32
  let b1 := rotateLeft (b ^^^ c1) 12
  let a2 := (a1 + b1) % M32
  let d2 := rotateLeft (d1 ^^^ a2) 8
  let c2 := (c1 + d2) % M32
  let b2 := rotateLeft (b1 ^^^ c2) 7
  (a2, b2, c2, d2)

/-- `quarterRound` with the rotation primitive abstracted out; used to state
that the quarter round only ever rotates by the amounts 16, 12, 8 and 7. -/
def quarterRoundG (rot : Nat → Nat → Nat) (a b c d : Nat) : Nat × Nat × Nat × Nat :=
  let a1 := (a + b) % M32
  let d1 := rot (d ^^^ a1) 16
  let c1 := (c + d1) % M32
  let b1 := rot (b ^^^ c1) 12
  let a2 := (a1 + b1) % M32
  let d2 := rot (d1 ^^^ a2) 8
  let c2 := (c1 + d2) % M32
  let b2 := rot (b1 ^^^ c2) 7
  (a2, b2, c2, d2)

/-- `quarterRound(x[i], x[j], x[k], x[l])`: apply the quarter round in place
to the four positions `i j k l` of the 16-word working array. -/
def applyQR (xs : List Nat) (i j k l : Nat) : List Nat :=
  let q := quarterRound (xs.getD i 0) (xs.getD j 0) (xs.getD k 0) (xs.getD l 0)
  (((xs.set i q.1).set j q.2.1).set k q.2.2.1).set l q.2.2.2

/-- One iteration of the round loop in `CCSH::chacha_block`: the four column
quarter rounds followed by the four diagonal quarter rounds. -/
def doubleRound (xs : List Nat) : List Nat :=
  applyQR (applyQR (applyQR (applyQR
    (applyQR (applyQR (applyQR (applyQR xs 0 4 8 12) 1 5 9 13) 2 6 10 14) 3 7 11 15)
    0 5 10 15) 1 6 11 12) 2 7 8 13) 3 4 9 14

/-- The round loop `for (i = 0; i < 10; i++) { ... }` of `CCSH::chacha_block`,
with the iteration count explicit. -/
def rounds : Nat → List Nat → List Nat
  | 0, xs => xs
  | n + 1, xs => rounds n (doubleRound xs)

/-- `CCSH::chacha_block`: copy the input into working registers, run 10
double rounds, and emit `out[i] = x[i] + in[i]` with `uint32_t` wraparound. -/
def chacha_block (inp : List Nat) : List Nat :=
  (List.range 16).map fun i => ((rounds 10 inp).getD i 0 + inp.getD i 0) % M32

/-- The four constant words `0x65787061, 0x6E642033, 0x32206279, 0x7465206B`
that `CCSH::update` places in `currState[0..3]`. -/
def constWords : List Nat := [0x65787061, 0x6E642033, 0x32206279, 0x7465206B]

/-- Little-endian packing of (up to) the first four bytes of `bs` into one
32-bit word, as `memcpy` produces on a little-endian machine; missing bytes
read as 0, matching the preceding `memset`. -/
def packWord (bs : List Nat) : Nat :=
  bs.getD 0 0 + 256 * (bs.getD 1 0 + 256 * (bs.getD 2 0 + 256 * bs.getD 3 0))

/-- The payload words `currState[4..11]`: the chunk's bytes packed
little-endian into eight 32-bit words, zero beyond the chunk's length. -/
def payloadWords (chunk : List Nat) : List Nat :=
  [ packWord (chunk.take 4)
  , packWord ((chunk.drop 4).take 4)
  , packWord ((chunk.drop 8).take 4)
  , packWord ((chunk.drop 12).take 4)
  , packWord ((chunk.drop 16).take 4)
  , packWord ((chunk.drop 20).take 4)
  , packWord ((chunk.drop 24).take 4)
  , packWord ((chunk.drop 28).take 4) ]

/-- Byte `i` (0-based, little-endian within each word) of a packed payload
word list: word `i / 4`, byte position `i % 4`. -/
def payloadByte (ws : List Nat) (i : Nat) : Nat :=
  ws.getD (i / 4) 0 / 256 ^ (i % 4) % 256

/-- The full 16-word `currState` passed to `chacha_block` for one chunk:
constants, payload, then `counter` (post-increment) in word 12, 0 in word 13,
the pre-increment `nonce` in word 14 and 0 in word 15 (both counters
truncated to their low 32 bits). -/
def buildInput (chunk : List Nat) (ctr non : Nat) : List Nat :=
  constWords ++ payloadWords chunk ++ [ctr % M32, 0, non % M32, 0]

/-- The member state of a `CCSH` object. -/
structure CCSHState where
  state : List Nat
  counter : Nat
  nonce : Nat
  initialized : Bool
deriving DecidableEq

/-- Word-wise XOR of two 16-word states, the `state[j] ^= outputBlock[j]`
loop of `CCSH::update`. -/
def xorWords (a b : List Nat) : List Nat :=
  (List.range 16).map fun i => a.getD i 0 ^^^ b.getD i 0

/-- The body of one iteration of the loop in `CCSH::update`, applied to the
chunk of bytes actually copied (`bytesToCopy` bytes): bump `counter`, build
`currState`, run `chacha_block`, and assign or XOR-fold the output. -/
def processChunk (s : CCSHState) (chunk : List Nat) : CCSHState :=
  let c2 := (s.counter + chunk.length) % M64
  let out := chacha_block (buildInput chunk c2 s.nonce)
  { state := if s.initialized then xorWords s.state out else out
    counter := c2
    nonce := (s.nonce + 1) % M64
    initialized := true }

/-- `bytesToCopy` from `CCSH::update`: the C++ code computes
`std::min<uint8_t>(dataEnd - data, 32)`, which first converts the remaining
byte count to `uint8_t` — i.e. reduces it modulo 256 — before taking the
minimum with 32. -/
def bytesToCopy (remaining : Nat) : Nat := min (remaining % 256) 32

/-- The `for (; data < dataEnd; data += 32)` loop of `CCSH::update`, as a
fuel-indexed structural recursion (the fuel is instantiated with the length
of the byte list, which bounds the number of iterations). -/
def updateLoopF : Nat → CCSHState → List Nat → CCSHState
  | _, s, [] => s
  | 0, s, _ :: _ => s
  | fuel + 1, s, b :: bs =>
      updateLoopF fuel (processChunk s ((b :: bs).take (bytesToCopy (b :: bs).length)))
        ((b :: bs).drop 32)

/-- `CCSH::update(const uint8_t*, uint64_t)`. -/
def update (s : CCSHState) (bs : List Nat) : CCSHState := updateLoopF bs.length s bs

/-- The state of a freshly constructed `CCSH` object:
`state{0}, counter{0}, nonce{0}, initialized{false}`. -/
def initState : CCSHState :=
  { state := List.replicate 16 0, counter := 0, nonce := 0, initialized := false }

/-- `CCSH::start(const uint8_t*, uint64_t)`: zero the state and the two
counters, clear `initialized`, then `update`. -/
def start (s : CCSHState) (bs : List Nat) : CCSHState :=
  update { s with
    state := List.replicate 16 0
    counter := 0
    nonce := 0
    initialized := false } bs

/-- Lowercase hexadecimal digit characters, as produced by `std::hex` with
the default `std::ios_base` formatting. -/
def hexDigitChar (n : Nat) : Char :=
  if n < 10 then Char.ofNat (48 + n) else Char.ofNat (87 + n)

/-- Most-significant-digit-first hexadecimal representation of `n`, empty
for 0, as a fuel-indexed structural recursion (fuel instantiated with `n`
itself, which bounds the digit count). -/
def hexRepF : Nat → Nat → List Char
  | _, 0 => []
  | 0, _ + 1 => []
  | fuel + 1, n + 1 => hexRepF fuel ((n + 1) / 16) ++ [hexDigitChar ((n + 1) % 16)]

/-- One word rendered by `ss << std::hex << std::setw(8) << std::setfill('0')`:
the hexadecimal digits of `w`, left-padded with `'0'` to width 8 (a value of
0 prints as eight `'0'` characters; values needing more than 8 digits print
unpadded, though no `uint32_t` value does). -/
def toHexPad8 (w : Nat) : String :=
  let ds := hexRepF w w
  String.mk (List.replicate (8 - ds.length) '0' ++ ds)

/-- `CCSH::hexdump`: stream each of the 16 state words into the string, in
word order 0..15. -/
def hexdump (s : CCSHState) : String :=
  (List.range 16).foldl (fun acc i => acc ++ toHexPad8 (s.state.getD i 0)) ""

/-- Calling the `const` method `hexdump` on an object: it returns the
rendered string and leaves the object's members untouched. -/
def digestCall (s : CCSHState) : String × CCSHState := (hexdump s, s)

/-- Numeric value of a lowercase hexadecimal digit character. -/
def hexCharVal (c : Char) : Nat :=
  if 97 ≤ c.toNat then c.toNat - 87 else c.toNat - 48

/-- Value of a most-significant-digit-first hexadecimal character string. -/
def hexVal (cs : List Char) : Nat :=
  cs.foldl (fun acc c => 16 * acc + hexCharVal c) 0

/-- The sixteen characters that may appear in a digest. -/
def hexdumpAlphabet : List Char := "0123456789abcdef".toList

/-- States reachable through the public API from a fresh `CCSH` object. -/
inductive Reachable : CCSHState → Prop where
  | init : Reachable initState
  | step_start (s : CCSHState) (bs : List Nat) : Reachable s → Reachable (start s bs)
  | step_update (s : CCSHState) (bs : List Nat) : Reachable s → Reachable (update s bs)

/-- The state invariant: 16 words, each a `uint32_t` value. -/
def GoodState (s : CCSHState) : Prop :=
  s.state.length = 16 ∧ ∀ w ∈ s.state, w < M32

/-- Big-endian packing of a string's character codes into one number, used to
spell out which byte order the constant words of `CCSH::update` use. -/
def bePackStr (s : String) : Nat :=
  s.data.foldl (fun acc ch => acc * 256 + ch.toNat) 0

/-- ChaCha quarter round following the specification text: four numbered ARX
steps on `(a, b, c, d)` with rotate-left amounts 16, 12, 8, 7, where
`rotate-left(x, n) = (x << n) | (x >> (32 - n))` on 32-bit words. -/
def refQuarterRound (a b c d : Nat) : Nat × Nat × Nat × Nat :=
  let a1 := (a + b) % M32
  let d1 := rotateLeft (d ^^^ a1) 16
  let c1 := (c + d1) % M32
  let b1 := rotateLeft (b ^^^ c1) 12
  let a2 := (a1 + b1) % M32
  let d2 := rotateLeft (d1 ^^^ a2) 8
  let c2 := (c1 + d2) % M32
  let b2 := rotateLeft (b1 ^^^ c2) 7
  (a2, b2, c2, d2)

/-- `refQuarterRound` applied in place at four indices. -/
def refApplyQR (xs : List Nat) (i j k l : Nat) : List Nat :=
  let q := refQuarterRound (xs.getD i 0) (xs.getD j 0) (xs.getD k 0) (xs.getD l 0)
  (((xs.set i q.1).set j q.2.1).set k q.2.2.1).set l q.2.2.2

/-- The column quarter-round index groups of the specification. -/
def columnIdx : List (Nat × Nat × Nat × Nat) :=
  [(0, 4, 8, 12), (1, 5, 9, 13), (2, 6, 10, 14), (3, 7, 11, 15)]

/-- The diagonal quarter-round index groups of the specification. -/
def diagonalIdx : List (Nat × Nat × Nat × Nat) :=
  [(0, 5, 10, 15), (1, 6, 11, 12), (2, 7, 8, 13), (3, 4, 9, 14)]

/-- One double round following the specification text: the four column
quarter rounds followed by the four diagonal quarter rounds. -/
def refDoubleRound (xs : List Nat) : List Nat :=
  (columnIdx ++ diagonalIdx).foldl
    (fun s q => refApplyQR s q.1 q.2.1 q.2.2.1 q.2.2.2) xs

/-- The reference ChaCha permutation following the specification text:
copy the input, iterate the double round 10 times, and add the original
input word-wise modulo `2^32`. -/
def refChaChaBlock (inp : List Nat) : List Nat :=
  (List.range 16).map fun i => ((refDoubleRound^[10] inp).getD i 0 + inp.getD i 0) % M32

end CCSH

namespace CCSH

theorem getD_lt_of_forall {l : List Nat} {m : Nat} (h : ∀ w ∈ l, w < m) (hm : 0 < m)
    (i : Nat) : l.getD i 0 < m := by
  by_cases hi : i < l.length
  · rw [List.getD_eq_getElem l 0 hi]
    exact h _ (List.getElem_mem hi)
  · rw [List.getD_eq_default l 0 (Nat.le_of_not_lt hi)]
    exact hm

theorem chacha_block_length (inp : List Nat) : (chacha_block inp).length = 16 := by
  simp [chacha_block]

theorem chacha_block_lt (inp : List Nat) : ∀ w ∈ chacha_block inp, w < M32 := by
  intro w hw
  simp only [chacha_block, List.mem_map, List.mem_range] at hw
  obtain ⟨i, _, rfl⟩ := hw
  exact Nat.mod_lt _ (by decide)

theorem xorWords_length (a b : List Nat) : (xorWords a b).length = 16 := by
  simp [xorWords]

theorem xorWords_lt {a b : List Nat} (ha : ∀ w ∈ a, w < M32) (hb : ∀ w ∈ b, w < M32) :
    ∀ w ∈ xorWords a b, w < M32 := by
  intro w hw
  simp only [xorWords, List.mem_map, List.mem_range] at hw
  obtain ⟨i, _, rfl⟩ := hw
  have h1 := getD_lt_of_forall ha (by decide) i
  have h2 := getD_lt_of_forall hb (by decide) i
  have hM : M32 = 2 ^ 32 := by decide
  rw [hM] at h1 h2 ⊢
  exact Nat.xor_lt_two_pow h1 h2

theorem processChunk_state (s : CCSHState) (chunk : List Nat) :
    (processChunk s chunk).state =
      if s.initialized then
        xorWords s.state (chacha_block (buildInput chunk ((s.counter + chunk.length) % M64) s.nonce))
      else chacha_block (buildInput chunk ((s.counter + chunk.length) % M64) s.nonce) := rfl

theorem processChunk_initialized (s : CCSHState) (chunk : List Nat) :
    (processChunk s chunk).initialized = true := rfl

theorem processChunk_good {s : CCSHState} (hs : GoodState s) (chunk : List Nat) :
    GoodState (processChunk s chunk) := by
  rcases hs with ⟨hlen, hlt⟩
  constructor
  · rw [processChunk_state]
    split
    · exact xorWords_length _ _
    · exact chacha_block_length _
  · rw [processChunk_state]
    split
    · exact xorWords_lt hlt (chacha_block_lt _)
    · exact chacha_block_lt _

theorem updateLoopF_good (fuel : Nat) :
    ∀ (s : CCSHState) (bs : List Nat), GoodState s → GoodState (updateLoopF fuel s bs) := by
  induction fuel with
  | zero =>
    intro s bs hs
    cases bs <;> simpa [updateLoopF] using hs
  | succ f ih =>
    intro s bs hs
    cases bs with
    | nil => simpa [updateLoopF] using hs
    | cons b tl =>
      simp only [updateLoopF]
      exact ih _ _ (processChunk_good hs _)

theorem initState_good : GoodState initState := by
  refine ⟨by decide, by decide⟩

theorem start_eq_update_initState (s : CCSHState) (bs : List Nat) :
    start s bs = update initState bs := rfl

theorem reachable_good {s : CCSHState} (h : Reachable s) : GoodState s := by
  induction h with
  | init => exact initState_good
  | step_start t bs _ _ =>
    rw [start_eq_update_initState]
    exact updateLoopF_good _ _ _ initState_good
  | step_update t bs _ ih => exact updateLoopF_good _ _ _ ih

theorem updateLoopF_initialized (fuel : Nat) :
    ∀ (s : CCSHState) (bs : List Nat), s.initialized = true →
      (updateLoopF fuel s bs).initialized = true := by
  induction fuel with
  | zero =>
    intro s bs h
    cases bs <;> simpa [updateLoopF] using h
  | succ f ih =>
    intro s bs h
    cases bs with
    | nil => simpa [updateLoopF] using h
    | cons b tl =>
      simp only [updateLoopF]
      exact ih _ _ rfl

end CCSH

namespace CCSH

theorem hexCharVal_hexDigitChar : ∀ r, r < 16 → hexCharVal (hexDigitChar r) = r := by decide

theorem hexDigitChar_mem_alphabet : ∀ r, r < 16 → hexDigitChar r ∈ hexdumpAlphabet := by decide

theorem hexVal_append_digit (l : List Char) (c : Char) :
    hexVal (l ++ [c]) = 16 * hexVal l + hexCharVal c := by
  simp [hexVal, List.foldl_append]

theorem hexVal_hexRepF : ∀ (fuel n : Nat), n ≤ fuel → hexVal (hexRepF fuel n) = n := by
  intro fuel
  induction fuel with
  | zero =>
    intro n hn
    interval_cases n
    rfl
  | succ f ih =>
    intro n hn
    match n with
    | 0 => rfl
    | m + 1 =>
      have hfuel : (m + 1) / 16 ≤ f := by
        have := Nat.div_lt_self (Nat.succ_pos m) (by norm_num : 1 < 16)
        omega
      simp only [hexRepF, hexVal_append_digit, ih ((m + 1) / 16) hfuel,
        hexCharVal_hexDigitChar _ (Nat.mod_lt _ (by norm_num))]
      omega

theorem hexRepF_length : ∀ (fuel n k : Nat), n < 16 ^ k → (hexRepF fuel n).length ≤ k := by
  intro fuel
  induction fuel with
  | zero =>
    intro n k _
    match n with
    | 0 => simp [hexRepF]
    | m + 1 => simp [hexRepF]
  | succ f ih =>
    intro n k hn
    match n with
    | 0 => simp [hexRepF]
    | m + 1 =>
      have hk : k ≠ 0 := by
        rintro rfl
        simp at hn
      obtain ⟨k', rfl⟩ := Nat.exists_eq_succ_of_ne_zero hk
      have hdiv : (m + 1) / 16 < 16 ^ k' := by
        rw [Nat.div_lt_iff_lt_mul (by norm_num : 0 < 16)]
        calc m + 1 < 16 ^ (k' + 1) := hn
        _ = 16 ^ k' * 16 := by rw [pow_succ]
      have := ih ((m + 1) / 16) k' hdiv
      simp only [hexRepF, List.length_append, List.length_cons, List.length_nil]
      omega

theorem hexRepF_mem_alphabet : ∀ (fuel n : Nat) (c : Char),
    c ∈ hexRepF fuel n → c ∈ hexdumpAlphabet := by
  intro fuel
  induction fuel with
  | zero =>
    intro n c hc
    match n with
    | 0 => simp [hexRepF] at hc
    | m + 1 => simp [hexRepF] at hc
  | succ f ih =>
    intro n c hc
    match n with
    | 0 => simp [hexRepF] at hc
    | m + 1 =>
      simp only [hexRepF, List.mem_append, List.mem_singleton] at hc
      rcases hc with h | h
      · exact ih _ _ h
      · rw [h]
        exact hexDigitChar_mem_alphabet _ (Nat.mod_lt _ (by norm_num))

theorem toHexPad8_length {w : Nat} (hw : w < M32) : (toHexPad8 w).length = 8 := by
  have h8 : (hexRepF w w).length ≤ 8 := by
    refine hexRepF_length w w 8 ?_
    have : (16 : Nat) ^ 8 = M32 := by decide
    omega
  simp only [toHexPad8, String.length, List.length_append, List.length_replicate]
  omega

theorem hexVal_replicate_zero_append :
    ∀ (k : Nat) (l : List Char), hexVal (List.replicate k '0' ++ l) = hexVal l := by
  intro k
  induction k with
  | zero => simp
  | succ n ih =>
    intro l
    have h0 : (16 : Nat) * 0 + hexCharVal '0' = 0 := by decide
    simp only [List.replicate_succ, List.cons_append, hexVal, List.foldl_cons, h0]
    exact ih l

theorem hexVal_toHexPad8 (w : Nat) : hexVal (toHexPad8 w).data = w := by
  show hexVal (List.replicate (8 - (hexRepF w w).length) '0' ++ hexRepF w w) = w
  rw [hexVal_replicate_zero_append]
  exact hexVal_hexRepF w w le_rfl

theorem toHexPad8_mem_alphabet (w : Nat) : ∀ c ∈ (toHexPad8 w).data, c ∈ hexdumpAlphabet := by
  intro c hc
  simp only [toHexPad8, List.mem_append, List.mem_replicate] at hc
  rcases hc with ⟨_, rfl⟩ | h
  · decide
  · exact hexRepF_mem_alphabet w w c h

theorem hexdump_eq_join (s : CCSHState) :
    hexdump s = String.join ((List.range 16).map fun i => toHexPad8 (s.state.getD i 0)) := by
  rw [hexdump, String.join, List.foldl_map]

theorem foldl_append_length (f : Nat → String) :
    ∀ (l : List Nat) (acc : String), (∀ i ∈ l, (f i).length = 8) →
      (l.foldl (fun a i => a ++ f i) acc).length = acc.length + 8 * l.length := by
  intro l
  induction l with
  | nil => simp
  | cons x xs ih =>
    intro acc h
    simp only [List.foldl_cons, List.length_cons]
    rw [ih _ (fun i hi => h i (List.mem_cons_of_mem _ hi)), String.length_append,
      h x (List.mem_cons_self x xs)]
    ring

theorem foldl_append_data_mem (f : Nat → String) :
    ∀ (l : List Nat) (acc : String), (∀ i ∈ l, ∀ c ∈ (f i).data, c ∈ hexdumpAlphabet) →
      (∀ c ∈ acc.data, c ∈ hexdumpAlphabet) →
      ∀ c ∈ (l.foldl (fun a i => a ++ f i) acc).data, c ∈ hexdumpAlphabet := by
  intro l
  induction l with
  | nil =>
    intro acc _ hacc
    simpa using hacc
  | cons x xs ih =>
    intro acc h hacc
    simp only [List.foldl_cons]
    refine ih _ (fun i hi => h i (List.mem_cons_of_mem _ hi)) ?_
    intro c hc
    rw [String.data_append] at hc
    rcases List.mem_append.mp hc with h1 | h2
    · exact hacc c h1
    · exact h x (List.mem_cons_self x xs) c h2

end CCSH

namespace CCSH

theorem getD_take_lt (l : List Nat) (j : Nat) (h : j < 4) :
    (l.take 4).getD j 0 = l.getD j 0 := by
  rw [List.getD_eq_getElem?_getD, List.getD_eq_getElem?_getD, List.getElem?_take, if_pos h]

theorem getD_drop_add (l : List Nat) (n j : Nat) :
    (l.drop n).getD j 0 = l.getD (n + j) 0 := by
  rw [List.getD_eq_getElem?_getD, List.getD_eq_getElem?_getD, List.getElem?_drop]

theorem pack_extract (a b c d : Nat) (h0 : a < 256) (h1 : b < 256) (h2 : c < 256)
    (h3 : d < 256) :
    (a + 256 * (b + 256 * (c + 256 * d))) % 256 = a
  ∧ (a + 256 * (b + 256 * (c + 256 * d))) / 256 % 256 = b
  ∧ (a + 256 * (b + 256 * (c + 256 * d))) / 65536 % 256 = c
  ∧ (a + 256 * (b + 256 * (c + 256 * d))) / 16777216 % 256 = d := by
  refine ⟨?_, ?_, ?_, ?_⟩ <;> omega

theorem packWord_byte (l : List Nat) (hb : ∀ b ∈ l, b < 256) (j : Nat) (hj : j < 4) :
    packWord (l.take 4) / 256 ^ j % 256 = l.getD j 0 := by
  have h0 := getD_lt_of_forall hb (by norm_num) 0
  have h1 := getD_lt_of_forall hb (by norm_num) 1
  have h2 := getD_lt_of_forall hb (by norm_num) 2
  have h3 := getD_lt_of_forall hb (by norm_num) 3
  have hp := pack_extract (l.getD 0 0) (l.getD 1 0) (l.getD 2 0) (l.getD 3 0) h0 h1 h2 h3
  rw [packWord, getD_take_lt l 0 (by norm_num), getD_take_lt l 1 (by norm_num),
    getD_take_lt l 2 (by norm_num), getD_take_lt l 3 (by norm_num)]
  interval_cases j
  · simpa using hp.1
  · simpa using hp.2.1
  · have h65536 : (256 : Nat) ^ 2 = 65536 := by norm_num
    rw [h65536]
    exact hp.2.2.1
  · have h16777216 : (256 : Nat) ^ 3 = 16777216 := by norm_num
    rw [h16777216]
    exact hp.2.2.2

theorem payloadWords_getD (chunk : List Nat) (k : Nat) (hk : k < 8) :
    (payloadWords chunk).getD k 0 = packWord ((chunk.drop (4 * k)).take 4) := by
  interval_cases k <;> simp [payloadWords]

theorem payloadByte_payloadWords (chunk : List Nat) (hb : ∀ b ∈ chunk, b < 256)
    (i : Nat) (hi : i < 32) :
    payloadByte (payloadWords chunk) i = chunk.getD i 0 := by
  have hk : i / 4 < 8 := by omega
  have hj : i % 4 < 4 := Nat.mod_lt _ (by norm_num)
  rw [payloadByte, payloadWords_getD chunk _ hk]
  have hdrop : ∀ b ∈ chunk.drop (4 * (i / 4)), b < 256 :=
    fun b hbm => hb b (List.mem_of_mem_drop hbm)
  rw [packWord_byte _ hdrop _ hj, getD_drop_add]
  congr 1
  omega

theorem refQuarterRound_eq (a b c d : Nat) :
    refQuarterRound a b c d = quarterRound a b c d := rfl

theorem refApplyQR_eq (xs : List Nat) (i j k l : Nat) :
    refApplyQR xs i j k l = applyQR xs i j k l := rfl

theorem refDoubleRound_eq (xs : List Nat) : refDoubleRound xs = doubleRound xs := by
  rw [refDoubleRound, doubleRound]
  simp only [columnIdx, diagonalIdx, List.cons_append, List.nil_append, List.foldl_cons,
    List.foldl_nil, refApplyQR_eq]

theorem rounds_eq_iterate (n : Nat) : ∀ xs, rounds n xs = refDoubleRound^[n] xs := by
  induction n with
  | zero => intro xs; rfl
  | succ m ih =>
    intro xs
    rw [rounds, ih (doubleRound xs), ← refDoubleRound_eq, ← Function.iterate_succ_apply]

end CCSH

set_option maxRecDepth 100000

namespace CCSH

/-- C1 (failing evaluation): `update` is supposed to partition its input into
chunks of at most 32 bytes, copy each chunk's actual bytes and add each
chunk's actual length to `counter`, so `start(B)` should end with
`counter = len(B)`.  Evaluating the code on a 256-byte input yields
`counter = 224`: `std::min<uint8_t>(dataEnd - data, 32)` truncates the
remaining length 256 to the `uint8_t` 0, so the first chunk copies 0 of its
32 bytes and contributes 0 to the counter. -/
theorem start_counter_bug :
    (start initState (List.replicate 256 0)).counter = 224
  ∧ bytesToCopy (List.replicate 256 (0 : Nat)).length = 0 :=
  ⟨by decide, by decide⟩

/-- C2 (counterexample): word 0 of the permutation input that `update` builds
for the 1-byte chunk `[97]` is `0x65787061`, not the little-endian constant
word `0x61707865` stated by the claim. -/
theorem constant_words_counterexample :
    (buildInput [97] 1 0).getD 0 0 ≠ 0x61707865 := by decide

/-- C2 (amended): in every permutation input built by `update`, words 0–3
hold the ASCII constant "expand 32-byte k" split into four 32-bit words in
big-endian byte order: word 0 = `0x65787061` ("expa"), word 1 = `0x6E642033`
("nd 3"), word 2 = `0x32206279` ("2 by"), word 3 = `0x7465206B` ("te k"). -/
theorem constant_words_amended (chunk : List Nat) (ctr non : Nat) :
    (buildInput chunk ctr non).take 4 = constWords
  ∧ constWords = ["expa", "nd 3", "2 by", "te k"].map bePackStr
  ∧ constWords = [0x65787061, 0x6E642033, 0x32206279, 0x7465206B] :=
  ⟨rfl, by decide, by decide⟩

/-- C3: `chacha_block` equals the reference ChaCha permutation assembled from
the specification text — copy the input into working registers, apply 10
iterations of the double round (column quarter rounds on
(0,4,8,12),(1,5,9,13),(2,6,10,14),(3,7,11,15), then diagonal quarter rounds
on (0,5,10,15),(1,6,11,12),(2,7,8,13),(3,4,9,14)), then add the original
input word-wise modulo `2^32`; and the quarter round equals the reference
four-step ARX sequence with rotations 16, 12, 8, 7. -/
theorem chacha_block_eq_ref :
    (∀ inp, chacha_block inp = refChaChaBlock inp)
  ∧ (∀ a b c d, quarterRound a b c d = refQuarterRound a b c d) := by
  constructor
  · intro inp
    rw [chacha_block, refChaChaBlock, rounds_eq_iterate]
  · intro a b c d
    rfl

/-- C4 (failing evaluation): the chunking guarantee fails for
`B1 = 256 zero bytes` (a multiple of 32) and `B2 = [1]`: processing `B1`
then `B2` gives a different `HashState` than processing `B1 ++ B2` in one
call, because the `uint8_t` truncation of the remaining length makes the two
runs copy different chunks (0 bytes vs 1 byte at the first block, with
different word-12 counters thereafter). -/
theorem update_concat_bug :
    (update (update initState (List.replicate 256 0)) [1]).state
      ≠ (update initState (List.replicate 256 0 ++ [1])).state := by decide

/-- C5: for every chunk processed by `update`: when `initialized` is false
the permutation output is assigned directly to the hash state and
`initialized` becomes true; otherwise the hash state becomes the word-wise
XOR of the old state with the permutation output; and once `initialized` is
true it stays true through the rest of the update loop. -/
theorem initialized_fold_spec (s : CCSHState) (chunk bs : List Nat) (fuel : Nat) :
    (s.initialized = false →
      (processChunk s chunk).state =
        chacha_block (buildInput chunk ((s.counter + chunk.length) % M64) s.nonce))
  ∧ (s.initialized = true →
      (processChunk s chunk).state =
        xorWords s.state
          (chacha_block (buildInput chunk ((s.counter + chunk.length) % M64) s.nonce)))
  ∧ (processChunk s chunk).initialized = true
  ∧ (s.initialized = true → (updateLoopF fuel s bs).initialized = true) := by
  refine ⟨?_, ?_, rfl, updateLoopF_initialized fuel s bs⟩
  · intro h
    rw [processChunk_state, h]
    simp
  · intro h
    rw [processChunk_state, h]
    simp

/-- Witness for C5 at concrete states: a fresh state (initialized = false)
assigns, an initialized state XOR-folds, and the loop keeps the flag. -/
theorem initialized_fold_spec_witness :
    (processChunk initState [1]).state =
      chacha_block (buildInput [1] ((initState.counter + [1].length) % M64) initState.nonce)
  ∧ (processChunk (processChunk initState [1]) [2]).state =
      xorWords (processChunk initState [1]).state
        (chacha_block (buildInput [2]
          (((processChunk initState [1]).counter + [2].length) % M64)
          (processChunk initState [1]).nonce))
  ∧ (updateLoopF 3 (processChunk initState [1]) [5, 6]).initialized = true :=
  ⟨(initialized_fold_spec initState [1] [] 0).1 rfl,
   (initialized_fold_spec (processChunk initState [1]) [2] [] 0).2.1 rfl,
   (initialized_fold_spec (processChunk initState [1]) [2] [5, 6] 3).2.2.2 rfl⟩

/-- C6: for every chunk the update loop processes, the permutation input
records the pre-increment nonce (low 32 bits) in word 14, the nonce is
incremented exactly once per chunk, words 13 and 15 are zero, and payload
bytes 0..31 (little-endian across words 4–11) equal the chunk's bytes with
every position beyond the chunk's length reading zero. -/
theorem buildInput_fields_spec (s : CCSHState) (chunk : List Nat)
    (hb : ∀ b ∈ chunk, b < 256) :
    (buildInput chunk ((s.counter + chunk.length) % M64) s.nonce).getD 14 0 = s.nonce % M32
  ∧ (processChunk s chunk).nonce = (s.nonce + 1) % M64
  ∧ (buildInput chunk ((s.counter + chunk.length) % M64) s.nonce).getD 13 0 = 0
  ∧ (buildInput chunk ((s.counter + chunk.length) % M64) s.nonce).getD 15 0 = 0
  ∧ (∀ i, i < 32 → payloadByte (payloadWords chunk) i = chunk.getD i 0) :=
  ⟨rfl, rfl, rfl, rfl, fun i hi => payloadByte_payloadWords chunk hb i hi⟩

/-- Witness for C6 at the concrete state `initState` and chunk `[7, 1]`. -/
theorem buildInput_fields_spec_witness :
    (buildInput [7, 1] ((initState.counter + [7, 1].length) % M64) initState.nonce).getD 14 0
      = initState.nonce % M32
  ∧ (processChunk initState [7, 1]).nonce = (initState.nonce + 1) % M64
  ∧ (buildInput [7, 1] ((initState.counter + [7, 1].length) % M64) initState.nonce).getD 13 0 = 0
  ∧ (buildInput [7, 1] ((initState.counter + [7, 1].length) % M64) initState.nonce).getD 15 0 = 0
  ∧ (∀ i, i < 32 → payloadByte (payloadWords [7, 1]) i = [7, 1].getD i 0) :=
  buildInput_fields_spec initState [7, 1] (by decide)

/-- C7: `start` resets the counters, the flag and the hash state before
absorbing, so from any prior state it coincides with `start` on a freshly
constructed object (and hence yields the same digest string). -/
theorem start_reset_spec (s : CCSHState) (bs : List Nat) :
    start s bs = start initState bs
  ∧ start s bs = update initState bs
  ∧ hexdump (start s bs) = hexdump (start initState bs) :=
  ⟨rfl, rfl, rfl⟩

/-- C8: in every reachable state the digest string has exactly 128
characters, all lowercase hexadecimal digits, and is the concatenation in
word order 0..15 of each state word rendered as 8 zero-padded hex digits
(most significant nibble first — reading a rendered word back as hex gives
the word); before any `start` it is 128 `'0'` characters. -/
theorem hexdump_format_spec (s : CCSHState) (h : Reachable s) :
    (hexdump s).length = 128
  ∧ (∀ c ∈ (hexdump s).data, c ∈ hexdumpAlphabet)
  ∧ hexdump s = String.join ((List.range 16).map fun i => toHexPad8 (s.state.getD i 0))
  ∧ (∀ i, i < 16 → (toHexPad8 (s.state.getD i 0)).length = 8
      ∧ hexVal (toHexPad8 (s.state.getD i 0)).data = s.state.getD i 0)
  ∧ hexdump initState = String.mk (List.replicate 128 '0') := by
  obtain ⟨hlen, hlt⟩ := reachable_good h
  have hwlt : ∀ i, s.state.getD i 0 < M32 := getD_lt_of_forall hlt (by decide)
  refine ⟨?_, ?_, hexdump_eq_join s, ?_, by decide⟩
  · have h1 := foldl_append_length (fun i => toHexPad8 (s.state.getD i 0)) (List.range 16) ""
      (fun i _ => toHexPad8_length (hwlt i))
    simpa [hexdump] using h1
  · have h2 := foldl_append_data_mem (fun i => toHexPad8 (s.state.getD i 0)) (List.range 16) ""
      (fun i _ => toHexPad8_mem_alphabet _) (by simp)
    simpa [hexdump] using h2
  · intro i _
    exact ⟨toHexPad8_length (hwlt i), hexVal_toHexPad8 _⟩

/-- Witness for C8 at the reachable state `initState`. -/
theorem hexdump_format_spec_witness :
    (hexdump initState).length = 128
  ∧ (∀ c ∈ (hexdump initState).data, c ∈ hexdumpAlphabet)
  ∧ hexdump initState
      = String.join ((List.range 16).map fun i => toHexPad8 (initState.state.getD i 0))
  ∧ (∀ i, i < 16 → (toHexPad8 (initState.state.getD i 0)).length = 8
      ∧ hexVal (toHexPad8 (initState.state.getD i 0)).data = initState.state.getD i 0)
  ∧ hexdump initState = String.mk (List.replicate 128 '0') :=
  hexdump_format_spec initState Reachable.init

/-- C9: calling `hexdump` returns the rendered string and leaves every
member of the object unchanged, so two consecutive digest calls after
`start(B)` return the identical string. -/
theorem digestCall_pure_spec (s : CCSHState) (bs : List Nat) :
    (digestCall s).2 = s
  ∧ (digestCall s).1 = hexdump s
  ∧ (digestCall (start initState bs)).1
      = (digestCall ((digestCall (start initState bs)).2)).1 :=
  ⟨rfl, rfl, rfl⟩

/-- C10: `quarterRound` is `quarterRoundG` instantiated with `rotateLeft`;
`quarterRoundG` only evaluates its rotation argument at the amounts
16, 12, 8 and 7; and each of those amounts `n` satisfies `1 ≤ n ≤ 31` and
`1 ≤ 32 - n ≤ 31`, so neither shift in
`(a << b) | (a >> (32 - b))` is by 32 or more on any execution path. -/
theorem quarterRound_rotations :
    (∀ a b c d, quarterRound a b c d = quarterRoundG rotateLeft a b c d)
  ∧ (∀ r r' : Nat → Nat → Nat,
      (∀ x n, (n = 16 ∨ n = 12 ∨ n = 8 ∨ n = 7) → r x n = r' x n) →
      ∀ a b c d, quarterRoundG r a b c d = quarterRoundG r' a b c d)
  ∧ (∀ n, (n = 16 ∨ n = 12 ∨ n = 8 ∨ n = 7) →
      (1 ≤ n ∧ n ≤ 31) ∧ 1 ≤ 32 - n ∧ 32 - n ≤ 31) := by
  refine ⟨fun a b c d => rfl, ?_, ?_⟩
  · intro r r' h a b c d
    have h16 : ∀ x, r x 16 = r' x 16 := fun x => h x 16 (by tauto)
    have h12 : ∀ x, r x 12 = r' x 12 := fun x => h x 12 (by tauto)
    have h8 : ∀ x, r x 8 = r' x 8 := fun x => h x 8 (by tauto)
    have h7 : ∀ x, r x 7 = r' x 7 := fun x => h x 7 (by tauto)
    simp only [quarterRoundG, h16, h12, h8, h7]
  · rintro n (rfl | rfl | rfl | rfl) <;> norm_num

/-- Witness for C10: the instantiation at rotation amount 16 and at a
concrete quarter-round input. -/
theorem quarterRound_rotations_witness :
    quarterRound 1 2 3 4 = quarterRoundG rotateLeft 1 2 3 4
  ∧ (1 ≤ 16 ∧ 16 ≤ 31) ∧ 1 ≤ 32 - 16 ∧ 32 - 16 ≤ 31 :=
  ⟨quarterRound_rotations.1 1 2 3 4, quarterRound_rotations.2.2 16 (Or.inl rfl)⟩

end CCSH
